import Mathlib

/-!
# Verification of the Koehandel game engine

Shallow embedding of the Koehandel auction-and-trade card game simulator
(`deck.py`, `game.py`, `player.py`, `strategy.py`, `simulation.py`).

Modelling conventions:
* Strategy bids (Python floats) are embedded as `ℚ`; budgets, prices,
  bonuses and scores as `ℤ` (the engine only ever credits and debits
  integer amounts: rounded prices, integer bonuses, integer start budget);
  counts as `ℤ`/`ℕ`.  Python `round` (round-half-to-even) is `pyRound`.
* Stochastic strategy output (`Strategy.bid`) is passed in as an explicit
  parameter (`sbids : String → ℚ`): it stands for the value that
  `Strategy.bid` returned for each player in the current context.
  Likewise the random trade decisions are passed in as a `TradeOracle`.
* The ownership matrix `Game._owners` and the per-player hands
  `Player._hand` are kept in lockstep by `Game._trade_animal`; we model the
  single shared counts table as `GameState.owners`.
-/

namespace Koehandel

/-- Round the rational `n / d` (`d ≠ 0`) to the nearest integer, ties to
even — the behaviour of Python `round` on an exact value.  Computed with
integer arithmetic: `f` is the floor and `r2 / d'` is twice the fractional
part. -/
def ratRoundHalfEven (n d : ℤ) : ℤ :=
  let n' := if d < 0 then -n else n
  let d' := if d < 0 then -d else d
  let f := n'.fdiv d'
  let r2 := 2 * (n' - f * d')
  if r2 < d' then f
  else if d' < r2 then f + 1
  else if f % 2 = 0 then f else f + 1

/-- Python `round` on a rational. -/
def pyRound (q : ℚ) : ℤ := ratRoundHalfEven q.num q.den

/-- `Game._round_bid`: `int(round(bid / bid_unit) * bid_unit + add * bid_unit)`
(the inner `round(bid / bid_unit)` is taken on the exact rational
`bid.num / (bid.den * bid_unit)`). -/
def roundBid (bid_unit : ℤ) (bid : ℚ) (add : ℤ) : ℤ :=
  ratRoundHalfEven bid.num ((bid.den : ℤ) * bid_unit) * bid_unit + add * bid_unit

/-- `Deck`: the card list built in `Deck.__init__` plus the draw pointer. -/
structure Deck where
  cards : List String
  pointer : ℕ
  deriving DecidableEq, Repr

/-- `Deck.remaining`: `return len(self._cards)` (note: the pointer is ignored
by the source). -/
def Deck.remaining (d : Deck) : ℕ := d.cards.length

/-- `Deck.draw`: return the card at the pointer and advance it, or `None`
when the pointer ran past the end. -/
def Deck.draw (d : Deck) : Option String × Deck :=
  if h : d.pointer < d.cards.length then
    (some d.cards[d.pointer], { d with pointer := d.pointer + 1 })
  else
    (none, d)

/-- The card list built in `Deck.__init__` before shuffling:
`[animal for _ in range(cards_each) for animal in animals]`. -/
def deckList (animalNames : List String) (cards_each : ℕ) : List String :=
  (List.replicate cards_each animalNames).flatten

/-- The configuration values the engine reads (`config.get(...)`); point
values, budgets and bonuses are integers, as in the game's configuration. -/
structure Config where
  animals : List (String × ℤ)
  cards_each : ℕ
  bid_unit : ℤ
  trade_threshold : ℤ
  start_budget : ℤ
  max_turns : ℕ
  score_threshold : ℤ
  score_budget : Bool
  animal_bonuses : String → List ℤ

/-- The animal type names (the keys of the configured `animals` dict). -/
def Config.animalNames (cfg : Config) : List String := cfg.animals.map (·.1)

/-- The mutable per-game state of `Game`: player names (insertion order of
the `_players` dict), the deck, the ownership matrix `_owners`, the player
budgets, and the remaining bonus schedules `_bonuses`. -/
structure GameState where
  players : List String
  deck : Deck
  owners : String → String → ℤ
  budgets : String → ℤ
  bonuses : String → List ℤ

/-- `self._owners.loc[p, a] += d`: bump one cell of the ownership matrix. -/
def bump (o : String → String → ℤ) (p a : String) (d : ℤ) : String → String → ℤ :=
  fun p' a' => if p' = p ∧ a' = a then o p' a' + d else o p' a'

/-- `Game._trade_animal`: give `animal` to `toP` and, when `fromP` is given,
take one from `fromP` (hand and matrix move together). -/
def trade_animal (s : GameState) (animal toP : String) (fromP : Option String) :
    GameState :=
  let s1 := { s with owners := bump s.owners toP animal 1 }
  match fromP with
  | none => s1
  | some f => { s1 with owners := bump s1.owners f animal (-1) }

/-- `Game._bonus`: if the drawn animal still has a bonus schedule, pop its
head and credit it to every player's budget. (An animal that is not a key
of `_bonuses` is modelled by the empty schedule.) -/
def bonusStep (animal : String) (s : GameState) : GameState :=
  match s.bonuses animal with
  | [] => s
  | b :: rest =>
    { s with
      bonuses := Function.update s.bonuses animal rest
      budgets := fun p => if p ∈ s.players then s.budgets p + b else s.budgets p }

/-- Python `str.lower` (character-wise lower-casing). -/
def strLower (s : String) : String := String.mk (s.data.map Char.toLower)

/-- `Player.__eq__`: compare players by lower-cased name. -/
def playerEq (a b : String) : Bool := strLower a == strLower b

/-- `Player.bid`: cap the (real-valued) strategy bid by the (integer)
budget when `budget_cap` is set. -/
def playerBid (sbid : ℚ) (budget : ℤ) (budget_cap : Bool) : ℚ :=
  if budget_cap then min sbid (budget : ℚ) else sbid

/-! ## Auction (`Game._auction`) -/

/-- The bid list built in `Game._auction`: every player other than the
auctioneer (Python `player != auctioneer` compares lower-cased names via
`Player.__eq__`) paired with its budget-capped bid. -/
def bidsList (sbids : String → ℚ) (auctName : String) (s : GameState) :
    List (String × ℚ) :=
  (s.players.filter (fun p => !(playerEq p auctName))).map
    (fun p => (p, playerBid (sbids p) (s.budgets p) true))

/-- Descending order on bids, as used by `bids.sort(key=lambda t: -t[1])`. -/
def bidGE (x y : String × ℚ) : Prop := y.2 ≤ x.2

instance : DecidableRel bidGE := fun x y => inferInstanceAs (Decidable (y.2 ≤ x.2))

instance : IsTotal (String × ℚ) bidGE := ⟨fun x y => le_total y.2 x.2⟩

instance : IsTrans (String × ℚ) bidGE := ⟨fun _ _ _ h1 h2 => le_trans h2 h1⟩

/-- The bid list sorted descending by bid (Python list sort is stable;
`List.insertionSort` with `bidGE` is the same stable descending sort). -/
def sortedBids (sbids : String → ℚ) (auctName : String) (s : GameState) :
    List (String × ℚ) :=
  List.insertionSort bidGE (bidsList sbids auctName s)

/-- The settlement decided by `Game._auction`: `(buyer, seller, price)`.
The clearing price is the second bid rounded up one unit, capped at the top
bidder's budget; the auctioneer buys iff its own `Player.bid` (with the
default `budget_cap=True`) is at least the price.  With fewer than two
non-auctioneer bidders the source raises `IndexError` (no settlement). -/
def auctionOutcome (cfg : Config) (sbids : String → ℚ) (auctName : String)
    (s : GameState) : Option (String × String × ℤ) :=
  match sortedBids sbids auctName s with
  | b0 :: b1 :: _ =>
    let price := min (roundBid cfg.bid_unit b1.2 1) (s.budgets b0.1)
    if playerBid (sbids auctName) (s.budgets auctName) true ≥ (price : ℚ) then
      some (auctName, b0.1, price)
    else
      some (b0.1, auctName, price)
  | _ => none

/-- `Game._auction`: apply the settlement to the state (buyer pays the
price to the seller, buyer's ownership count is incremented). -/
def auction (cfg : Config) (sbids : String → ℚ) (animal auctName : String)
    (s : GameState) : GameState :=
  match auctionOutcome cfg sbids auctName s with
  | none => s
  | some (buyer, seller, price) =>
    let b1 := Function.update s.budgets buyer (s.budgets buyer - price)
    let b2 := Function.update b1 seller (b1 seller + price)
    trade_animal { s with budgets := b2 } animal buyer none

/-- The draw/bonus/auction part of one turn of `Game.run`: draw a card and,
if one remains, pay the bonus and run the auction; otherwise do nothing. -/
def auctionTurnPart (cfg : Config) (sbids : String → ℚ) (auctName : String)
    (s : GameState) : GameState :=
  match s.deck.draw with
  | (some animal, d') => auction cfg sbids animal auctName (bonusStep animal { s with deck := d' })
  | (none, _) => s

/-! ## Trading (`Game._trade`, `Game._trade_candidates`) -/

/-- One ownership-matrix column as `Game._trade` passes it:
the `_owners` rows in player order. -/
def column (s : GameState) (a : String) : List (String × ℤ) :=
  s.players.map (fun p => (p, s.owners p a))

/-- The auctioneer's entry of a column (`animal_column[auctioneer_name]`). -/
def collectedOf (col : List (String × ℤ)) (auct : String) : ℤ :=
  ((col.find? (fun c => c.1 == auct)).map (·.2)).getD 0

/-- `Game._trade_candidates`: if the auctioneer's count is in
`[threshold, 4)` (the source hardcodes `4`), the opponents are the other
players owning at least one card; return them with the column total. -/
def trade_candidates (col : List (String × ℤ)) (auctioneer_name : String)
    (threshold : ℤ) : Option (List String × ℤ) :=
  let total := (col.map (·.2)).sum
  let collected := collectedOf col auctioneer_name
  if threshold ≤ collected ∧ collected < 4 then
    let rest := col.filter (fun c => c.1 != auctioneer_name)
    let opponents := (rest.filter (fun c => 0 < c.2)).map (·.1)
    if opponents.isEmpty then none else some (opponents, total)
  else none

/-- The candidate dict built in `Game._trade` (insertion order of the
configured animal columns). -/
def candidatesMap (cfg : Config) (auctName : String) (s : GameState) :
    List (String × (List String × ℤ)) :=
  cfg.animalNames.filterMap
    (fun a => (trade_candidates (column s a) auctName cfg.trade_threshold).map
      (fun c => (a, c)))

/-- The stochastic choices made during one trade phase:
`Player.start_trade`'s result (`none` when the auctioneer declines),
the `random.choice` pick among eligible opponents (an index), and the
opponent's `Player.trade_counter` result. -/
structure TradeOracle where
  choice : Option (String × ℚ)
  pick : ℕ
  counter : ℚ

/-- The settlement part of `Game._trade` (after opponent and counter offer
are fixed): the larger raw amount wins the animal; both amounts are rounded
to the bidding unit and exchanged unconditionally. -/
def tradeSettle (cfg : Config) (s : GameState) (animal auct opp : String)
    (offer counter : ℚ) : GameState :=
  let s1 := if offer ≥ counter then trade_animal s animal auct (some opp)
            else trade_animal s animal opp (some auct)
  let ctrR : ℤ := roundBid cfg.bid_unit counter 0
  let offR : ℤ := roundBid cfg.bid_unit offer 0
  let b1 := Function.update s1.budgets auct (s1.budgets auct - offR + ctrR)
  let b2 := Function.update b1 opp (b1 opp - ctrR + offR)
  { s1 with budgets := b2 }

/-- `Game._trade`: build the candidate dict; stop if it is empty, if the
auctioneer declines, or (unreachably, mirroring `Player.start_trade` only
offering candidate animals) if the chosen animal is not a candidate;
otherwise pick an opponent and settle. -/
def tradePhase (cfg : Config) (o : TradeOracle) (auctName : String)
    (s : GameState) : GameState :=
  let cands := candidatesMap cfg auctName s
  if cands.isEmpty then s
  else
    match o.choice with
    | none => s
    | some (animal, offer) =>
      match cands.find? (fun c => c.1 == animal) with
      | none => s
      | some (_, opps, _) =>
        match opps[o.pick % opps.length]? with
        | none => s
        | some opp => tradeSettle cfg s animal auctName opp offer o.counter

/-! ## The turn loop (`Game.run`) -/

/-- All stochastic choices of one turn. -/
structure TurnOracle where
  sbids : String → ℚ
  trade : TradeOracle

/-- One full turn of `Game.run`: draw/bonus/auction, then the trade phase. -/
def turnStep (cfg : Config) (o : TurnOracle) (auctName : String)
    (s : GameState) : GameState :=
  tradePhase cfg o.trade auctName (auctionTurnPart cfg o.sbids auctName s)

/-- Maximum of an integer list (used for `self._owners.max(axis=0)`). -/
def listMax : List ℤ → ℤ
  | [] => 0
  | x :: xs => xs.foldl max x

/-- `np.all(self._owners.max(axis=0) == 4)`: every animal column has some
player holding 4 cards (the source hardcodes `4`). -/
def allCompleteCheck (cfg : Config) (s : GameState) : Bool :=
  cfg.animalNames.all (fun a => listMax (s.players.map (fun p => s.owners p a)) == 4)

/-- The `while not all_complete` loop of `Game.run`, fuelled: each iteration
runs one turn, re-evaluates `all_complete` only when `Deck.remaining` is 0,
and breaks when a positive `max_turns` is exceeded.  `none` means the fuel
ran out with the loop still running. -/
def runLoop (cfg : Config) (stepF : ℕ → GameState → GameState) :
    ℕ → ℕ → Bool → GameState → Option GameState
  | 0, _, allComplete, s => if allComplete then some s else none
  | fuel + 1, turn, allComplete, s =>
    if allComplete then some s
    else
      let s' := stepF turn s
      let turn' := turn + 1
      let ac' := if s'.deck.remaining = 0 then allCompleteCheck cfg s' else allComplete
      if 0 < cfg.max_turns ∧ cfg.max_turns < turn' then some s'
      else runLoop cfg stepF fuel turn' ac' s'

/-- The auctioneer of turn `t` (1-based), cycling through the shuffled
rotation (`itertools.cycle`). -/
def stepOf (cfg : Config) (rot : List String) (oracles : ℕ → TurnOracle) :
    ℕ → GameState → GameState :=
  fun turn s => turnStep cfg (oracles turn) (rot.getD ((turn - 1) % rot.length) "") s

/-- `Player.complete_sets`: number of animal types held at least
`threshold` times. -/
def complete_sets (cfg : Config) (s : GameState) (p : String) (threshold : ℤ) : ℤ :=
  ((cfg.animals.filter (fun av => threshold ≤ s.owners p av.1)).length : ℤ)

/-- `Player.final_score`: points of the complete sets times the number of
complete sets, plus the budget when `score_budget` is configured. -/
def final_score (cfg : Config) (s : GameState) (p : String) : ℤ :=
  let thr := cfg.score_threshold
  let pts := ((cfg.animals.filter (fun av => thr ≤ s.owners p av.1)).map
    (fun av => s.owners p av.1 * av.2)).sum
  let pts := pts * complete_sets cfg s p thr
  if cfg.score_budget then pts + s.budgets p else pts

/-- What the tail of `Game.run` produces: the score dict is computed and
logged, but the function body has no return statement, so the Python value
returned to the caller is `None`. -/
structure RunOutcome where
  scoresComputed : List (String × ℤ)
  returned : Option (List (String × ℤ))
  deriving DecidableEq, Repr

/-- The end of `Game.run` once the loop has exited. -/
def gameRunFinish (cfg : Config) (s : GameState) : RunOutcome :=
  { scoresComputed := s.players.map (fun p => (p, final_score cfg s p))
    returned := none }

/-- `Game.run` (fuelled): run the turn loop, then compute the final scores;
`none` when the fuel ran out before the loop exited. -/
def gameRun (cfg : Config) (stepF : ℕ → GameState → GameState) (fuel : ℕ)
    (s0 : GameState) : Option RunOutcome :=
  (runLoop cfg stepF fuel 1 false s0).map (gameRunFinish cfg)

/-- `Simulator.play_game`: runs one game and returns whatever `Game.run`
returned. -/
def play_game (cfg : Config) (stepF : ℕ → GameState → GameState) (fuel : ℕ)
    (s0 : GameState) : Option (Option (List (String × ℤ))) :=
  (gameRun cfg stepF fuel s0).map (·.returned)

/-- `Simulator.run`: one `play_game` result per scheduled game, collected
in submission order. -/
def simulatorRun (cfg : Config)
    (games : List ((ℕ → GameState → GameState) × ℕ × GameState)) :
    List (Option (Option (List (String × ℤ)))) :=
  games.map (fun g => play_game cfg g.1 g.2.1 g.2.2)

/-! ## Player management (`Game.add_player`) -/

/-- `Game.max_players`. -/
def maxPlayers : ℕ := 5

/-- `Game.add_player`: reject when the maximum is reached or when the exact
name is already a key of the `_players` dict; otherwise append. -/
def add_player (players : List String) (name : String) :
    Except String (List String) :=
  if maxPlayers ≤ players.length then
    Except.error "Too many players"
  else if players.contains name then
    Except.error "Player already exists"
  else
    Except.ok (players ++ [name])

/-! ## Game setup and derived quantities -/

/-- The state after `Game.run`'s setup: zero ownership matrix, fresh
budgets, full bonus schedules, and the (already shuffled) deck. -/
def initState (cfg : Config) (names : List String) (cards : List String) :
    GameState :=
  { players := names
    deck := { cards := cards, pointer := 0 }
    owners := fun _ _ => 0
    budgets := fun _ => cfg.start_budget
    bonuses := cfg.animal_bonuses }

/-- Total ownership of one animal over all players (one matrix column sum). -/
def ownedTotal (s : GameState) (a : String) : ℤ :=
  (s.players.map (fun p => s.owners p a)).sum

/-- Cards of one animal not yet drawn (the cards at or past the pointer). -/
def undrawnZ (s : GameState) (a : String) : ℤ :=
  ((s.deck.cards.drop s.deck.pointer).count a : ℤ)

/-- Sum of all players' budgets. -/
def totalBudget (s : GameState) : ℤ := (s.players.map s.budgets).sum

/-- The transitions `Game.run` performs on the game state: the
draw/bonus/auction part of a turn (only taken with the auctioneer in the
game and at least two other bidders, since `_auction` indexes `bids[1]`),
and the trade part of a turn. -/
inductive Step (cfg : Config) : GameState → GameState → Prop
  | auctionTurn (sbids : String → ℚ) (auctName : String) (s : GameState)
      (hmem : auctName ∈ s.players)
      (hbid : 2 ≤ (bidsList sbids auctName s).length) :
      Step cfg s (auctionTurnPart cfg sbids auctName s)
  | tradeTurn (o : TradeOracle) (auctName : String) (s : GameState)
      (hmem : auctName ∈ s.players) :
      Step cfg s (tradePhase cfg o auctName s)

/-- States reachable from a start state through game transitions. -/
def Reachable (cfg : Config) : GameState → GameState → Prop :=
  Relation.ReflTransGen (Step cfg)

/-! ## Helper lemmas -/

theorem bump_self (o : String → String → ℤ) (p a : String) (d : ℤ) :
    bump o p a d p a = o p a + d := by simp [bump]

theorem bump_of_ne_animal (o : String → String → ℤ) (p a : String) (d : ℤ)
    (q a' : String) (h : a' ≠ a) : bump o p a d q a' = o q a' := by
  simp [bump, h]

theorem bump_of_ne_player (o : String → String → ℤ) (p a : String) (d : ℤ)
    (q a' : String) (h : q ≠ p) : bump o p a d q a' = o q a' := by
  simp [bump, h]

theorem sum_map_update {β : Type} [AddCommGroup β] (l : List String)
    (f : String → β) (x : String) (v : β) (hx : x ∈ l) (hnd : l.Nodup) :
    (l.map (Function.update f x v)).sum = (l.map f).sum + v - f x := by
  induction l with
  | nil => cases hx
  | cons y ys ih =>
    rcases List.mem_cons.mp hx with rfl | hmem
    · have hy : x ∉ ys := (List.nodup_cons.mp hnd).1
      have hmap : ys.map (Function.update f x v) = ys.map f := by
        apply List.map_congr_left
        intro z hz
        have hzx : z ≠ x := by rintro rfl; exact hy hz
        exact Function.update_noteq hzx v f
      simp only [List.map_cons, List.sum_cons, hmap, Function.update_same]
      abel
    · have hne : y ≠ x := by rintro rfl; exact (List.nodup_cons.mp hnd).1 hmem
      have hys := ih hmem (List.nodup_cons.mp hnd).2
      simp only [List.map_cons, List.sum_cons, Function.update_noteq hne, hys]
      abel

theorem sum_map_bump_same (l : List String) (o : String → String → ℤ)
    (p a : String) (d : ℤ) (hp : p ∈ l) (hnd : l.Nodup) :
    (l.map (fun q => bump o p a d q a)).sum = (l.map (fun q => o q a)).sum + d := by
  induction l with
  | nil => cases hp
  | cons y ys ih =>
    rcases List.mem_cons.mp hp with rfl | hmem
    · have hy : p ∉ ys := (List.nodup_cons.mp hnd).1
      have hmap : ys.map (fun q => bump o p a d q a) = ys.map (fun q => o q a) := by
        apply List.map_congr_left
        intro z hz
        exact bump_of_ne_player o p a d z a (by rintro rfl; exact hy hz)
      simp only [List.map_cons, List.sum_cons, hmap, bump_self]
      ring
    · have hne : y ≠ p := by rintro rfl; exact (List.nodup_cons.mp hnd).1 hmem
      have hys := ih hmem (List.nodup_cons.mp hnd).2
      simp only [List.map_cons, List.sum_cons, bump_of_ne_player o p a d y a hne, hys]
      ring

theorem sum_map_add_const (l : List String) (f : String → ℤ) (c : ℤ)
    (g : String → ℤ) (hg : ∀ x ∈ l, g x = f x + c) :
    (l.map g).sum = (l.map f).sum + c * l.length := by
  induction l with
  | nil => simp
  | cons y ys ih =>
    have hy := hg y (List.mem_cons_self y ys)
    have hys := ih (fun x hx => hg x (List.mem_cons_of_mem y hx))
    simp only [List.map_cons, List.sum_cons, hy, hys, List.length_cons]
    push_cast
    ring

theorem ne_of_playerEq_false {p q : String} (h : playerEq p q = false) : p ≠ q := by
  rintro rfl
  simp [playerEq] at h

theorem mem_bidsList {sbids : String → ℚ} {auctName : String} {s : GameState}
    {p : String} {b : ℚ} (h : (p, b) ∈ bidsList sbids auctName s) :
    p ∈ s.players ∧ playerEq p auctName = false := by
  unfold bidsList at h
  rcases List.mem_map.mp h with ⟨q, hq, heq⟩
  rcases List.mem_filter.mp hq with ⟨hqmem, hqcond⟩
  cases heq
  exact ⟨hqmem, by simpa using hqcond⟩

theorem mem_sortedBids {sbids : String → ℚ} {auctName : String} {s : GameState}
    {x : String × ℚ} (h : x ∈ sortedBids sbids auctName s) :
    x.1 ∈ s.players ∧ playerEq x.1 auctName = false := by
  have hx : x ∈ bidsList sbids auctName s :=
    (List.perm_insertionSort bidGE _).mem_iff.mp h
  exact @mem_bidsList sbids auctName s x.1 x.2 hx

theorem length_sortedBids (sbids : String → ℚ) (auctName : String) (s : GameState) :
    (sortedBids sbids auctName s).length = (bidsList sbids auctName s).length :=
  (List.perm_insertionSort bidGE _).length_eq

theorem trade_animal_players (s : GameState) (an toP : String) (fromP : Option String) :
    (trade_animal s an toP fromP).players = s.players := by
  cases fromP <;> rfl

theorem trade_animal_deck (s : GameState) (an toP : String) (fromP : Option String) :
    (trade_animal s an toP fromP).deck = s.deck := by
  cases fromP <;> rfl

theorem trade_animal_budgets (s : GameState) (an toP : String) (fromP : Option String) :
    (trade_animal s an toP fromP).budgets = s.budgets := by
  cases fromP <;> rfl

theorem bonusStep_players (an : String) (s : GameState) :
    (bonusStep an s).players = s.players := by
  unfold bonusStep
  cases s.bonuses an <;> rfl

theorem bonusStep_deck (an : String) (s : GameState) :
    (bonusStep an s).deck = s.deck := by
  unfold bonusStep
  cases s.bonuses an <;> rfl

theorem bonusStep_owners (an : String) (s : GameState) :
    (bonusStep an s).owners = s.owners := by
  unfold bonusStep
  cases s.bonuses an <;> rfl

theorem auction_players (cfg : Config) (sbids : String → ℚ) (animal auctName : String)
    (s : GameState) : (auction cfg sbids animal auctName s).players = s.players := by
  unfold auction
  cases h : auctionOutcome cfg sbids auctName s with
  | none => rfl
  | some r => simp only [trade_animal_players]

theorem auction_deck (cfg : Config) (sbids : String → ℚ) (animal auctName : String)
    (s : GameState) : (auction cfg sbids animal auctName s).deck = s.deck := by
  unfold auction
  cases h : auctionOutcome cfg sbids auctName s with
  | none => rfl
  | some r => simp only [trade_animal_deck]

theorem tradeSettle_players (cfg : Config) (s : GameState) (an auct opp : String)
    (off ctr : ℚ) : (tradeSettle cfg s an auct opp off ctr).players = s.players := by
  unfold tradeSettle
  by_cases h : off ≥ ctr <;> simp [h, trade_animal_players]

theorem tradeSettle_deck (cfg : Config) (s : GameState) (an auct opp : String)
    (off ctr : ℚ) : (tradeSettle cfg s an auct opp off ctr).deck = s.deck := by
  unfold tradeSettle
  by_cases h : off ≥ ctr <;> simp [h, trade_animal_deck]

theorem tradePhase_cases (cfg : Config) (o : TradeOracle) (auctName : String)
    (s : GameState) :
    tradePhase cfg o auctName s = s ∨
    ∃ animal offer opps total opp,
      animal ∈ cfg.animalNames ∧
      trade_candidates (column s animal) auctName cfg.trade_threshold = some (opps, total) ∧
      opp ∈ opps ∧
      tradePhase cfg o auctName s = tradeSettle cfg s animal auctName opp offer o.counter := by
  unfold tradePhase
  by_cases hemp : (candidatesMap cfg auctName s).isEmpty = true
  · left; simp [hemp]
  · rw [if_neg hemp]
    cases hch : o.choice with
    | none => left; rfl
    | some pr =>
      obtain ⟨animal, offer⟩ := pr
      cases hfind : (candidatesMap cfg auctName s).find? (fun c => c.1 == animal) with
      | none => left; simp [hfind]
      | some c =>
        obtain ⟨a0, opps, total⟩ := c
        have hc1 : a0 = animal := by
          have := List.find?_some hfind
          simpa using this
        subst hc1
        have hcmem : (a0, opps, total) ∈ candidatesMap cfg auctName s :=
          List.mem_of_find?_eq_some hfind
        rcases List.mem_filterMap.mp hcmem with ⟨a1, ha1, hmap⟩
        cases hoc : trade_candidates (column s a1) auctName cfg.trade_threshold with
        | none => rw [hoc] at hmap; cases hmap
        | some cand =>
          rw [hoc] at hmap
          have hpair : (a1, cand) = (a0, (opps, total)) := Option.some.inj hmap
          have ha10 : a1 = a0 := congrArg Prod.fst hpair
          have hcand : cand = (opps, total) := congrArg Prod.snd hpair
          subst ha10
          subst hcand
          cases hget : opps[o.pick % opps.length]? with
          | none => left; simp [hfind, hget]
          | some opp =>
            right
            refine ⟨a1, offer, opps, total, opp, ha1, hoc, ?_, ?_⟩
            · exact List.getElem?_mem hget
            · simp [hfind, hget]

theorem exists_cons_cons_of_two_le {α : Type} {l : List α} (h : 2 ≤ l.length) :
    ∃ a b t, l = a :: b :: t := by
  match l, h with
  | a :: b :: t, _ => exact ⟨a, b, t, rfl⟩

theorem bidsList_length (sbids : String → ℚ) (auctName : String) (s : GameState) :
    (bidsList sbids auctName s).length =
      (s.players.filter (fun p => !(playerEq p auctName))).length := by
  unfold bidsList
  rw [List.length_map]

theorem trade_candidates_some {col : List (String × ℤ)} {auct : String} {thr : ℤ}
    {opps : List String} {total : ℤ}
    (h : trade_candidates col auct thr = some (opps, total)) :
    thr ≤ collectedOf col auct ∧ collectedOf col auct < 4 ∧
      opps = ((col.filter (fun c => c.1 != auct)).filter (fun c => 0 < c.2)).map (·.1) := by
  simp only [trade_candidates] at h
  split_ifs at h with h1 h2
  all_goals cases h
  all_goals exact ⟨h1.1, h1.2, rfl⟩

theorem opp_mem_players {s : GameState} {animal auctName : String} {thr : ℤ}
    {opps : List String} {total : ℤ} {opp : String}
    (h : trade_candidates (column s animal) auctName thr = some (opps, total))
    (hopp : opp ∈ opps) : opp ∈ s.players ∧ opp ≠ auctName := by
  obtain ⟨-, -, hopps⟩ := trade_candidates_some h
  subst hopps
  rcases List.mem_map.mp hopp with ⟨c, hc, rfl⟩
  rcases List.mem_filter.mp hc with ⟨hc1, -⟩
  rcases List.mem_filter.mp hc1 with ⟨hcol, hne⟩
  constructor
  · rcases List.mem_map.mp hcol with ⟨p, hp, rfl⟩
    exact hp
  · simpa using hne

theorem sum_double_bump (l : List String) (o : String → String → ℤ)
    (X Y anim a : String) (hX : X ∈ l) (hY : Y ∈ l) (hnd : l.Nodup) :
    (l.map (fun p => bump (bump o X anim 1) Y anim (-1) p a)).sum
      = (l.map (fun p => o p a)).sum := by
  by_cases haa : a = anim
  · subst haa
    rw [sum_map_bump_same l _ Y a (-1) hY hnd, sum_map_bump_same l o X a 1 hX hnd]
    ring
  · have hcongr : ∀ p ∈ l, bump (bump o X anim 1) Y anim (-1) p a = o p a := by
      intro p _
      rw [bump_of_ne_animal _ _ _ _ _ _ haa, bump_of_ne_animal _ _ _ _ _ _ haa]
    rw [List.map_congr_left hcongr]

theorem tradeSettle_owners (cfg : Config) (s : GameState) (animal auct opp : String)
    (off ctr : ℚ) :
    (tradeSettle cfg s animal auct opp off ctr).owners =
      if off ≥ ctr then bump (bump s.owners auct animal 1) opp animal (-1)
      else bump (bump s.owners opp animal 1) auct animal (-1) := by
  unfold tradeSettle trade_animal
  by_cases h : off ≥ ctr <;> simp [h]

theorem tradeSettle_ownedTotal (cfg : Config) (s : GameState)
    (animal auct opp : String) (off ctr : ℚ) (hnd : s.players.Nodup)
    (ha : auct ∈ s.players) (ho : opp ∈ s.players) (a : String) :
    ownedTotal (tradeSettle cfg s animal auct opp off ctr) a = ownedTotal s a := by
  unfold ownedTotal
  rw [tradeSettle_players, tradeSettle_owners]
  by_cases h : off ≥ ctr
  · rw [if_pos h]
    exact sum_double_bump s.players s.owners auct opp animal a ha ho hnd
  · rw [if_neg h]
    exact sum_double_bump s.players s.owners opp auct animal a ho ha hnd

theorem auctionOutcome_some {cfg : Config} {sbids : String → ℚ} {auctName : String}
    {s : GameState} (hmem : auctName ∈ s.players)
    (hbid : 2 ≤ (bidsList sbids auctName s).length) :
    ∃ buyer seller price,
      auctionOutcome cfg sbids auctName s = some (buyer, seller, price) ∧
      buyer ∈ s.players ∧ seller ∈ s.players ∧ buyer ≠ seller := by
  obtain ⟨b0, b1, rest, hsort⟩ := exists_cons_cons_of_two_le
    (by rw [length_sortedBids]; exact hbid)
  have hb0mem : b0.1 ∈ s.players ∧ playerEq b0.1 auctName = false :=
    mem_sortedBids (by rw [hsort]; exact List.mem_cons_self _ _)
  have hb0ne : b0.1 ≠ auctName := ne_of_playerEq_false hb0mem.2
  by_cases hdec : playerBid (sbids auctName) (s.budgets auctName) true ≥
      min (roundBid cfg.bid_unit b1.2 1) (s.budgets b0.1)
  · refine ⟨auctName, b0.1,
      min (roundBid cfg.bid_unit b1.2 1) (s.budgets b0.1),
      ?_, hmem, hb0mem.1, fun h => hb0ne h.symm⟩
    simp only [auctionOutcome, hsort]
    rw [if_pos hdec]
  · refine ⟨b0.1, auctName,
      min (roundBid cfg.bid_unit b1.2 1) (s.budgets b0.1),
      ?_, hb0mem.1, hmem, hb0ne⟩
    simp only [auctionOutcome, hsort]
    rw [if_neg hdec]

theorem auction_of_outcome {cfg : Config} {sbids : String → ℚ}
    {animal auctName : String} {s : GameState} {buyer seller : String} {price : ℤ}
    (h : auctionOutcome cfg sbids auctName s = some (buyer, seller, price)) :
    auction cfg sbids animal auctName s =
      { s with
        budgets := Function.update
          (Function.update s.budgets buyer (s.budgets buyer - price)) seller
          ((Function.update s.budgets buyer (s.budgets buyer - price)) seller + price)
        owners := bump s.owners buyer animal 1 } := by
  unfold auction
  rw [h]
  rfl

theorem auction_of_outcome_none {cfg : Config} {sbids : String → ℚ}
    {animal auctName : String} {s : GameState}
    (h : auctionOutcome cfg sbids auctName s = none) :
    auction cfg sbids animal auctName s = s := by
  unfold auction
  rw [h]

theorem draw_spec (d : Deck) :
    (d.cards.length ≤ d.pointer ∧ d.draw = (none, d)) ∨
    (∃ h : d.pointer < d.cards.length,
      d.draw = (some d.cards[d.pointer],
        { cards := d.cards, pointer := d.pointer + 1 })) := by
  unfold Deck.draw
  by_cases h : d.pointer < d.cards.length
  · right
    exact ⟨h, by rw [dif_pos h]⟩
  · left
    exact ⟨le_of_not_lt h, by rw [dif_neg h]⟩

/-- The conservation invariant together with the frame facts it needs:
the player list and the full card list never change, and for every animal
the owned cards plus the undrawn cards account for the whole deck. -/
def Inv (names cards : List String) (s : GameState) : Prop :=
  s.players = names ∧ s.deck.cards = cards ∧
    ∀ a, ownedTotal s a + undrawnZ s a = (cards.count a : ℤ)

theorem inv_init (cfg : Config) (names cards : List String) :
    Inv names cards (initState cfg names cards) := by
  refine ⟨rfl, rfl, fun a => ?_⟩
  unfold ownedTotal undrawnZ initState
  simp

theorem inv_step {cfg : Config} {names cards : List String} {s s' : GameState}
    (hnd : names.Nodup) (hinv : Inv names cards s) (hstep : Step cfg s s') :
    Inv names cards s' := by
  obtain ⟨hp, hcards, hsum⟩ := hinv
  cases hstep with
  | auctionTurn sbids auctName _ hmem hbid =>
    rcases draw_spec s.deck with ⟨hge, hdraw⟩ | ⟨hlt, hdraw⟩
    · simp only [auctionTurnPart, hdraw]
      exact ⟨hp, hcards, hsum⟩
    · simp only [auctionTurnPart, hdraw]
      have hmem₃ : auctName ∈ (bonusStep s.deck.cards[s.deck.pointer]
          { s with deck := { cards := s.deck.cards, pointer := s.deck.pointer + 1 } }).players := by
        rw [bonusStep_players]
        exact hmem
      have hbid₃ : 2 ≤ (bidsList sbids auctName (bonusStep s.deck.cards[s.deck.pointer]
          { s with deck := { cards := s.deck.cards, pointer := s.deck.pointer + 1 } })).length := by
        rw [bidsList_length, bonusStep_players]
        rw [bidsList_length] at hbid
        exact hbid
      obtain ⟨buyer, seller, price, hout, hbm, _, _⟩ :=
        @auctionOutcome_some cfg _ _ _ hmem₃ hbid₃
      rw [auction_of_outcome hout]
      rw [bonusStep_players] at hbm
      have howners := bonusStep_owners s.deck.cards[s.deck.pointer]
        { s with deck := { cards := s.deck.cards, pointer := s.deck.pointer + 1 } }
      have hdeck := bonusStep_deck s.deck.cards[s.deck.pointer]
        { s with deck := { cards := s.deck.cards, pointer := s.deck.pointer + 1 } }
      refine ⟨by simpa [bonusStep_players] using hp, by simpa [hdeck] using hcards, fun a => ?_⟩
      have hdrop : s.deck.cards.drop s.deck.pointer
          = s.deck.cards[s.deck.pointer] :: s.deck.cards.drop (s.deck.pointer + 1) :=
        List.drop_eq_getElem_cons hlt
      unfold ownedTotal undrawnZ
      simp only [bonusStep_players, howners, hdeck]
      rw [hp]
      by_cases haa : a = s.deck.cards[s.deck.pointer]
      · have hsum_an := hsum s.deck.cards[s.deck.pointer]
        unfold ownedTotal undrawnZ at hsum_an
        rw [hp, hdrop, List.count_cons_self] at hsum_an
        rw [haa,
          sum_map_bump_same names s.owners buyer s.deck.cards[s.deck.pointer] 1
            (hp ▸ hbm) hnd]
        push_cast at hsum_an ⊢
        linarith
      · have hsum_a := hsum a
        unfold ownedTotal undrawnZ at hsum_a
        rw [hp, hdrop, List.count_cons_of_ne haa] at hsum_a
        have hcongr : ∀ p ∈ names,
            bump s.owners buyer s.deck.cards[s.deck.pointer] 1 p a = s.owners p a := by
          intro p _
          exact bump_of_ne_animal _ _ _ _ _ _ haa
        rw [List.map_congr_left hcongr]
        exact hsum_a
  | tradeTurn o auctName _ hmem =>
    rcases tradePhase_cases cfg o auctName s with heq |
      ⟨animal, offer, opps, total, opp, hanim, hcand, hopp, heq⟩
    · rw [heq]
      exact ⟨hp, hcards, hsum⟩
    · rw [heq]
      obtain ⟨hoppmem, _⟩ := opp_mem_players hcand hopp
      refine ⟨by rw [tradeSettle_players]; exact hp,
        by rw [tradeSettle_deck]; exact hcards, fun a => ?_⟩
      rw [tradeSettle_ownedTotal cfg s animal auctName opp offer o.counter
        (hp ▸ hnd) hmem hoppmem a]
      have : undrawnZ (tradeSettle cfg s animal auctName opp offer o.counter) a
          = undrawnZ s a := by
        unfold undrawnZ
        rw [tradeSettle_deck]
      rw [this]
      exact hsum a

theorem inv_reachable {cfg : Config} {names cards : List String} {s : GameState}
    (hnd : names.Nodup)
    (hr : Reachable cfg (initState cfg names cards) s) : Inv names cards s := by
  induction hr with
  | refl => exact inv_init cfg names cards
  | tail _ hstep ih => exact inv_step hnd ih hstep

theorem count_deckList (animalNames : List String) (cards_each : ℕ) (a : String)
    (ha : a ∈ animalNames) (hnd : animalNames.Nodup) :
    (deckList animalNames cards_each).count a = cards_each := by
  unfold deckList
  rw [List.count_flatten]
  simp only [List.map_replicate, List.sum_replicate, smul_eq_mul]
  rw [List.count_eq_one_of_mem hnd ha]
  ring

/-! ## Spec-side definitions (refinement comparisons)

These follow the specification's words, to be compared with the
definitions translated from the source. -/

/-- Spec-side notion of remaining cards: the cards not yet drawn. -/
def deckRemainingSpec (d : Deck) : ℕ := d.cards.length - d.pointer

/-- Spec-side trade-candidate predicate: the auctioneer's own count lies in
the half-open interval from the trade threshold to the configured number of
cards per animal, and some other player owns at least one. -/
def tradeCandidateSpec (col : List (String × ℤ)) (auct : String)
    (threshold cardsEach : ℤ) : Bool :=
  (decide (threshold ≤ collectedOf col auct) &&
    decide (collectedOf col auct < cardsEach)) &&
  (col.filter (fun c => c.1 != auct)).any (fun c => decide (0 < c.2))

/-- Spec-side terminal condition: all cards drawn and for every animal type
some player holds all of the configured cards of it. -/
def specTerminal (cfg : Config) (s : GameState) : Bool :=
  (deckRemainingSpec s.deck == 0) &&
    cfg.animalNames.all (fun a =>
      s.players.any (fun p => s.owners p a == (cfg.cards_each : ℤ)))

/-! ## Concrete example instances used by the claim witnesses -/

/-- A minimal configuration: one animal type worth 10 points, one card. -/
def exCfg : Config :=
  { animals := [("cow", 10)]
    cards_each := 1
    bid_unit := 10
    trade_threshold := 2
    start_budget := 90
    max_turns := 0
    score_threshold := 4
    score_budget := true
    animal_bonuses := fun _ => [] }

def exNames : List String := ["A", "B", "C"]

/-- Strategy bids for the example auction: B bids 30, C bids 20, A bids 10. -/
def exSbids : String → ℚ :=
  fun p => if p = "B" then 30 else if p = "C" then 20 else 10

/-! ## Claim theorems -/

/-- C1: Conservation invariant.  In every state reachable from setup through
draw/bonus/auction settlements and trade settlements, for every configured
animal type the ownership counts summed over all players plus the cards of
that animal still undrawn in the deck equal the fixed total minted for it
(`cards_each`): auction settlement increments only the buyer by one for the
freshly drawn animal, and trade settlement increments the winner and
decrements the loser by one. -/
theorem conservation_invariant (cfg : Config) (names cards : List String)
    (a : String) (s : GameState) (hnd : names.Nodup)
    (hr : Reachable cfg (initState cfg names cards) s)
    (hperm : cards.Perm (deckList cfg.animalNames cfg.cards_each))
    (ha : a ∈ cfg.animalNames) (hand : cfg.animalNames.Nodup) :
    ownedTotal s a + undrawnZ s a = (cfg.cards_each : ℤ) := by
  obtain ⟨-, -, hsum⟩ := inv_reachable hnd hr
  rw [hsum a, hperm.count_eq,
    count_deckList cfg.animalNames cfg.cards_each a ha hand]

/-- Witness for C1: after one concrete draw/bonus/auction turn the single
cow is owned by exactly one player and none remain undrawn. -/
theorem conservation_invariant_witness :
    ownedTotal (auctionTurnPart exCfg exSbids "A" (initState exCfg exNames ["cow"])) "cow"
      + undrawnZ (auctionTurnPart exCfg exSbids "A" (initState exCfg exNames ["cow"])) "cow"
      = (exCfg.cards_each : ℤ) :=
  conservation_invariant exCfg exNames ["cow"] "cow" _
    (by decide)
    (Relation.ReflTransGen.single
      (Step.auctionTurn exSbids "A" (initState exCfg exNames ["cow"])
        (by decide) (by decide)))
    (by decide) (by decide) (by decide)

/-- C2 (code bug): `Deck.remaining` returns the constructed card-list length
and ignores the draw pointer, so it does not decrease on a draw and never
reaches 0 for a non-empty deck; drawing past the end does report empty
(`none`) without changing the deck. -/
theorem deck_remaining_bug :
    (Deck.mk ["cow"] 0).draw = (some "cow", Deck.mk ["cow"] 1) ∧
    (Deck.mk ["cow"] 1).remaining = 1 ∧
    (Deck.mk ["cow"] 1).draw = (none, Deck.mk ["cow"] 1) := by
  decide

/-- C5: Clearing price.  With at least two non-auctioneer bidders, the bid
list sorted by the engine is a permutation of the capped bids in descending
order, the settled price is the second entry rounded to the bidding unit
plus one unit and capped at the top bidder's budget, and whenever the
auctioneer is the seller (does not buy) the buyer is the top bidder and the
price does not exceed the top bidder's pre-auction budget. -/
theorem clearing_price (cfg : Config) (sbids : String → ℚ) (auctName : String)
    (s : GameState) (b0 b1 : String × ℚ) (rest : List (String × ℚ))
    (hsort : sortedBids sbids auctName s = b0 :: b1 :: rest) :
    List.Perm (b0 :: b1 :: rest) (bidsList sbids auctName s) ∧
    List.Sorted bidGE (b0 :: b1 :: rest) ∧
    (∃ buyer seller,
      auctionOutcome cfg sbids auctName s =
        some (buyer, seller,
          min (roundBid cfg.bid_unit b1.2 1) (s.budgets b0.1)) ∧
      (seller = auctName →
        buyer = b0.1 ∧
        min (roundBid cfg.bid_unit b1.2 1) (s.budgets b0.1)
          ≤ s.budgets b0.1)) := by
  have hb0ne : b0.1 ≠ auctName :=
    ne_of_playerEq_false (mem_sortedBids
      (by rw [hsort]; exact List.mem_cons_self _ _)).2
  refine ⟨?_, ?_, ?_⟩
  · rw [← hsort]
    exact List.perm_insertionSort bidGE _
  · rw [← hsort]
    exact List.sorted_insertionSort bidGE _
  · by_cases hdec : playerBid (sbids auctName) (s.budgets auctName) true ≥
        min (roundBid cfg.bid_unit b1.2 1) (s.budgets b0.1)
    · refine ⟨auctName, b0.1, ?_, fun hsell => absurd hsell hb0ne⟩
      simp only [auctionOutcome, hsort]
      rw [if_pos hdec]
    · refine ⟨b0.1, auctName, ?_, fun _ => ⟨rfl, min_le_right _ _⟩⟩
      simp only [auctionOutcome, hsort]
      rw [if_neg hdec]

/-- Witness for C5 at the concrete example auction: bids sort to
B: 30, C: 20, the price is `min(round(20/10)*10+10, 90)` and A does not
buy, so B pays no more than its budget of 90. -/
theorem clearing_price_witness :
    List.Perm [("B", (30 : ℚ)), ("C", (20 : ℚ))]
      (bidsList exSbids "A" (initState exCfg exNames ["cow"])) ∧
    List.Sorted bidGE [("B", (30 : ℚ)), ("C", (20 : ℚ))] ∧
    (∃ buyer seller,
      auctionOutcome exCfg exSbids "A" (initState exCfg exNames ["cow"]) =
        some (buyer, seller,
          min (roundBid exCfg.bid_unit (20 : ℚ) 1)
            ((initState exCfg exNames ["cow"]).budgets "B")) ∧
      (seller = "A" →
        buyer = "B" ∧
        min (roundBid exCfg.bid_unit (20 : ℚ) 1)
          ((initState exCfg exNames ["cow"]).budgets "B")
          ≤ (initState exCfg exNames ["cow"]).budgets "B")) :=
  clearing_price exCfg exSbids "A" (initState exCfg exNames ["cow"])
    ("B", 30) ("C", 20) [] (by decide)

/-- Auction state for the C3 example: auctioneer A has only 10 budget,
B and C have 90. -/
def stC3 : GameState :=
  { players := ["A", "B", "C"]
    deck := { cards := [], pointer := 0 }
    owners := fun _ _ => 0
    budgets := fun p => if p = "A" then 10 else 90
    bonuses := fun _ => [] }

/-- Strategy bids for the C3 example: the auctioneer A's strategy wants 100. -/
def sbidsC3 : String → ℚ :=
  fun p => if p = "A" then 100 else if p = "B" then 30 else 20

/-- C3 counterexample: here the clearing price is 30 and the auctioneer's
uncapped strategy bid is 100 ≥ 30, yet the engine does not make the
auctioneer the buyer: `Game._auction` calls `Player.bid` with the default
budget cap, so the decision bid is `min(100, 10) = 10 < 30` and B buys. -/
theorem auctioneer_uncapped_refuted :
    sbidsC3 "A" ≥ (30 : ℚ) ∧
    auctionOutcome exCfg sbidsC3 "A" stC3 = some ("B", "A", 30) := by
  decide

/-- C3 (amended): the auctioneer's own bid used for the buy decision is
budget-capped (`Player.bid` default).  If the capped bid meets the clearing
price the auctioneer buys at the price, which therefore never exceeds its
budget, leaving its post-auction budget non-negative; otherwise the top
bidder buys at the price. -/
theorem auctioneer_bid_capped (cfg : Config) (sbids : String → ℚ)
    (animal auctName : String) (s : GameState) (b0 b1 : String × ℚ)
    (rest : List (String × ℚ))
    (hsort : sortedBids sbids auctName s = b0 :: b1 :: rest) :
    (playerBid (sbids auctName) (s.budgets auctName) true ≥
        min (roundBid cfg.bid_unit b1.2 1) (s.budgets b0.1) →
      auctionOutcome cfg sbids auctName s =
        some (auctName, b0.1,
          min (roundBid cfg.bid_unit b1.2 1) (s.budgets b0.1)) ∧
      min (roundBid cfg.bid_unit b1.2 1) (s.budgets b0.1)
        ≤ s.budgets auctName ∧
      (auction cfg sbids animal auctName s).budgets auctName =
        s.budgets auctName -
          min (roundBid cfg.bid_unit b1.2 1) (s.budgets b0.1) ∧
      0 ≤ (auction cfg sbids animal auctName s).budgets auctName) ∧
    (¬ playerBid (sbids auctName) (s.budgets auctName) true ≥
        min (roundBid cfg.bid_unit b1.2 1) (s.budgets b0.1) →
      auctionOutcome cfg sbids auctName s =
        some (b0.1, auctName,
          min (roundBid cfg.bid_unit b1.2 1) (s.budgets b0.1))) := by
  have hb0ne : b0.1 ≠ auctName :=
    ne_of_playerEq_false (mem_sortedBids
      (by rw [hsort]; exact List.mem_cons_self _ _)).2
  constructor
  · intro hdec
    have hout : auctionOutcome cfg sbids auctName s =
        some (auctName, b0.1,
          min (roundBid cfg.bid_unit b1.2 1) (s.budgets b0.1)) := by
      simp only [auctionOutcome, hsort]
      rw [if_pos hdec]
    have hcap : playerBid (sbids auctName) (s.budgets auctName) true
        ≤ s.budgets auctName := by
      unfold playerBid
      rw [if_pos rfl]
      exact min_le_right _ _
    have hple : min (roundBid cfg.bid_unit b1.2 1) (s.budgets b0.1)
        ≤ s.budgets auctName := by exact_mod_cast le_trans hdec hcap
    have hbudget : (auction cfg sbids animal auctName s).budgets auctName =
        s.budgets auctName -
          min (roundBid cfg.bid_unit b1.2 1) (s.budgets b0.1) := by
      rw [auction_of_outcome hout]
      dsimp only
      rw [Function.update_noteq (Ne.symm hb0ne), Function.update_same]
    refine ⟨hout, hple, hbudget, ?_⟩
    rw [hbudget]
    linarith
  · intro hdec
    simp only [auctionOutcome, hsort]
    rw [if_neg hdec]

/-- Strategy bids for the amended C3 witness: the auctioneer A's strategy
wants 100 and its budget (90) covers the clearing price. -/
def sbidsBuy : String → ℚ :=
  fun p => if p = "A" then 100 else if p = "B" then 30 else 20

/-- Witness for the amended C3: with budget 90 the capped decision bid is
90 ≥ 30, the auctioneer buys at 30, and its budget stays non-negative. -/
theorem auctioneer_bid_capped_witness :
    auctionOutcome exCfg sbidsBuy "A" (initState exCfg exNames ["cow"]) =
      some ("A", "B", 30) ∧
    0 ≤ (auction exCfg sbidsBuy "cow" "A"
      (initState exCfg exNames ["cow"])).budgets "A" := by
  obtain ⟨hbuy, -⟩ := auctioneer_bid_capped exCfg sbidsBuy "cow" "A"
    (initState exCfg exNames ["cow"]) ("B", 30) ("C", 20) [] (by decide)
  obtain ⟨hout, -, -, hpos⟩ := hbuy (by decide)
  refine ⟨?_, hpos⟩
  rw [hout]
  decide

theorem tradeSettle_budgets (cfg : Config) (s : GameState) (animal auct opp : String)
    (off ctr : ℚ) :
    (tradeSettle cfg s animal auct opp off ctr).budgets =
      Function.update
        (Function.update s.budgets auct
          (s.budgets auct - (roundBid cfg.bid_unit off 0)
            + (roundBid cfg.bid_unit ctr 0)))
        opp
        (Function.update s.budgets auct
          (s.budgets auct - (roundBid cfg.bid_unit off 0)
            + (roundBid cfg.bid_unit ctr 0)) opp
          - (roundBid cfg.bid_unit ctr 0)
          + (roundBid cfg.bid_unit off 0)) := by
  unfold tradeSettle
  by_cases h : off ≥ ctr <;> simp [h, trade_animal_budgets]

/-- C6: Trade settlement.  The animal moves to whoever named the larger raw
amount (auctioneer on `offer ≥ counter`, opponent otherwise), while the
money transfer is unconditional and symmetric: with both amounts rounded to
the bidding unit (no added unit), the auctioneer's budget changes by
`+counter − offer` and the opponent's by `+offer − counter`; other budgets
and other animal columns are untouched. -/
theorem trade_settlement (cfg : Config) (s : GameState) (animal auct opp : String)
    (off ctr : ℚ) (hne : auct ≠ opp) :
    (tradeSettle cfg s animal auct opp off ctr).budgets auct =
      s.budgets auct - (roundBid cfg.bid_unit off 0)
        + (roundBid cfg.bid_unit ctr 0) ∧
    (tradeSettle cfg s animal auct opp off ctr).budgets opp =
      s.budgets opp - (roundBid cfg.bid_unit ctr 0)
        + (roundBid cfg.bid_unit off 0) ∧
    (∀ p, p ≠ auct → p ≠ opp →
      (tradeSettle cfg s animal auct opp off ctr).budgets p = s.budgets p) ∧
    (off ≥ ctr →
      (tradeSettle cfg s animal auct opp off ctr).owners auct animal =
        s.owners auct animal + 1 ∧
      (tradeSettle cfg s animal auct opp off ctr).owners opp animal =
        s.owners opp animal - 1) ∧
    (¬ off ≥ ctr →
      (tradeSettle cfg s animal auct opp off ctr).owners opp animal =
        s.owners opp animal + 1 ∧
      (tradeSettle cfg s animal auct opp off ctr).owners auct animal =
        s.owners auct animal - 1) ∧
    (∀ p a, a ≠ animal →
      (tradeSettle cfg s animal auct opp off ctr).owners p a = s.owners p a) := by
  have hb := tradeSettle_budgets cfg s animal auct opp off ctr
  have ho := tradeSettle_owners cfg s animal auct opp off ctr
  refine ⟨?_, ?_, ?_, ?_, ?_, ?_⟩
  · rw [hb, Function.update_noteq hne, Function.update_same]
  · rw [hb, Function.update_same, Function.update_noteq (Ne.symm hne)]
  · intro p hpa hpo
    rw [hb, Function.update_noteq hpo, Function.update_noteq hpa]
  · intro hoc
    rw [ho, if_pos hoc]
    constructor
    · rw [bump_of_ne_player _ _ _ _ _ _ hne, bump_self]
    · rw [bump_self, bump_of_ne_player _ _ _ _ _ _ (Ne.symm hne)]
      ring
  · intro hoc
    rw [ho, if_neg hoc]
    constructor
    · rw [bump_of_ne_player _ _ _ _ _ _ (Ne.symm hne), bump_self]
    · rw [bump_self, bump_of_ne_player _ _ _ _ _ _ hne]
      ring
  · intro p a hanim
    rw [ho]
    by_cases hoc : off ≥ ctr
    · rw [if_pos hoc, bump_of_ne_animal _ _ _ _ _ _ hanim,
        bump_of_ne_animal _ _ _ _ _ _ hanim]
    · rw [if_neg hoc, bump_of_ne_animal _ _ _ _ _ _ hanim,
        bump_of_ne_animal _ _ _ _ _ _ hanim]

/-- Witness for C6 at a concrete trade: A offers 25 for a cow held by B,
B counters 17; A wins the animal, pays `round(25/10)*10 = 20` (banker's
rounding of 2.5 gives 2) and receives `round(17/10)*10 = 20`. -/
theorem trade_settlement_witness :
    (tradeSettle exCfg stC3 "cow" "A" "B" 25 17).budgets "A" =
      stC3.budgets "A" - (roundBid exCfg.bid_unit 25 0)
        + (roundBid exCfg.bid_unit 17 0) ∧
    (tradeSettle exCfg stC3 "cow" "A" "B" 25 17).owners "A" "cow" =
      stC3.owners "A" "cow" + 1 ∧
    (tradeSettle exCfg stC3 "cow" "A" "B" 25 17).owners "B" "cow" =
      stC3.owners "B" "cow" - 1 := by
  obtain ⟨hba, -, -, hmove, -, -⟩ :=
    trade_settlement exCfg stC3 "cow" "A" "B" 25 17 (by decide)
  obtain ⟨h1, h2⟩ := hmove (by norm_num)
  exact ⟨hba, h1, h2⟩

/-- C10: Budget conservation.  An auction settlement and a trade settlement
each leave the sum of all players' budgets unchanged (the buyer's debit is
the seller's credit; the auctioneer's `+counter − offer` is the negation of
the opponent's `+offer − counter`), while a bonus payout increases the
total by the bonus amount times the number of players. -/
theorem budget_conservation (cfg : Config) (s : GameState)
    (hnd : s.players.Nodup) :
    (∀ (sbids : String → ℚ) (animal auctName : String), auctName ∈ s.players →
      2 ≤ (bidsList sbids auctName s).length →
      totalBudget (auction cfg sbids animal auctName s) = totalBudget s) ∧
    (∀ (animal auct opp : String) (offer counter : ℚ),
      auct ∈ s.players → opp ∈ s.players → auct ≠ opp →
      totalBudget (tradeSettle cfg s animal auct opp offer counter) =
        totalBudget s) ∧
    (∀ (animal : String) (b : ℤ) (rest : List ℤ), s.bonuses animal = b :: rest →
      totalBudget (bonusStep animal s) =
        totalBudget s + b * s.players.length) := by
  refine ⟨?_, ?_, ?_⟩
  · intro sbids animal auctName hmem hbid
    obtain ⟨buyer, seller, price, hout, hbm, hsm, hbs⟩ :=
      @auctionOutcome_some cfg _ _ _ hmem hbid
    rw [auction_of_outcome hout]
    unfold totalBudget
    dsimp only
    rw [sum_map_update s.players
        (Function.update s.budgets buyer (s.budgets buyer - price)) seller _ hsm hnd,
      sum_map_update s.players s.budgets buyer _ hbm hnd]
    ring
  · intro animal auct opp offer counter ha ho hne
    unfold totalBudget
    rw [tradeSettle_players, tradeSettle_budgets]
    rw [sum_map_update s.players
        (Function.update s.budgets auct
          (s.budgets auct - roundBid cfg.bid_unit offer 0
            + roundBid cfg.bid_unit counter 0)) opp _ ho hnd,
      sum_map_update s.players s.budgets auct _ ha hnd]
    ring
  · intro animal b rest hsch
    unfold totalBudget
    simp only [bonusStep, hsch]
    exact sum_map_add_const s.players s.budgets b _ (fun x hx => if_pos hx)

/-- Witness for C10: the concrete trade of C6 moves 20 one way and 20 the
other, leaving the total budget unchanged. -/
theorem budget_conservation_witness :
    totalBudget (tradeSettle exCfg stC3 "cow" "A" "B" 25 17) =
      totalBudget stC3 :=
  (budget_conservation exCfg stC3 (by decide)).2.1 "cow" "A" "B" 25 17
    (by decide) (by decide) (by decide)

/-! Lemmas about the trade-candidate filter. -/

theorem find?_map_fst {l : List String} {f : String → ℤ} {x : String}
    (hx : x ∈ l) :
    (l.map (fun p => (p, f p))).find? (fun c => c.1 == x) = some (x, f x) := by
  induction l with
  | nil => cases hx
  | cons y ys ih =>
    rcases List.mem_cons.mp hx with rfl | hmem
    · rw [List.map_cons, List.find?_cons_of_pos _ (by simp)]
    · by_cases hyx : y = x
      · subst hyx
        rw [List.map_cons, List.find?_cons_of_pos _ (by simp)]
      · rw [List.map_cons, List.find?_cons_of_neg _ (by simp [hyx])]
        exact ih hmem

theorem collectedOf_column {s : GameState} {auctName a : String}
    (hmem : auctName ∈ s.players) :
    collectedOf (column s a) auctName = s.owners auctName a := by
  unfold collectedOf column
  rw [find?_map_fst hmem]
  rfl

theorem trade_candidates_isSome_iff {col : List (String × ℤ)} {auct : String}
    {thr : ℤ} :
    (trade_candidates col auct thr).isSome ↔
      (thr ≤ collectedOf col auct ∧ collectedOf col auct < 4 ∧
        ∃ c ∈ col, c.1 ≠ auct ∧ 0 < c.2) := by
  simp only [trade_candidates]
  split_ifs with h1 h2
  · simp only [Option.isSome_none, Bool.false_eq_true, false_iff]
    rintro ⟨-, -, c, hc, hne, hpos⟩
    have hmm : c.1 ∈ ((col.filter (fun c => c.1 != auct)).filter
        (fun c => decide (0 < c.2))).map (·.1) := by
      apply List.mem_map_of_mem
      refine List.mem_filter.mpr ⟨List.mem_filter.mpr ⟨hc, ?_⟩, ?_⟩
      · simpa using hne
      · simpa using hpos
    rw [List.isEmpty_iff.mp h2] at hmm
    cases hmm
  · simp only [Option.isSome_some, true_iff]
    refine ⟨h1.1, h1.2, ?_⟩
    have hne : ((col.filter (fun c => c.1 != auct)).filter
        (fun c => decide (0 < c.2))).map (·.1) ≠ [] := by
      simpa [List.isEmpty_iff] using h2
    obtain ⟨x, hx⟩ := List.exists_mem_of_ne_nil _ hne
    rcases List.mem_map.mp hx with ⟨c, hc, -⟩
    rcases List.mem_filter.mp hc with ⟨hc1, hpos⟩
    rcases List.mem_filter.mp hc1 with ⟨hcol, hnea⟩
    exact ⟨c, hcol, by simpa using hnea, by simpa using hpos⟩
  · simp only [Option.isSome_none, Bool.false_eq_true, false_iff]
    rintro ⟨hth, hlt, -⟩
    exact h1 ⟨hth, hlt⟩

theorem exists_col_iff {s : GameState} {a auctName : String} :
    (∃ c ∈ column s a, c.1 ≠ auctName ∧ 0 < c.2) ↔
      (∃ p ∈ s.players, p ≠ auctName ∧ 0 < s.owners p a) := by
  constructor
  · rintro ⟨c, hc, hne, hpos⟩
    rcases List.mem_map.mp hc with ⟨p, hp, rfl⟩
    exact ⟨p, hp, hne, hpos⟩
  · rintro ⟨p, hp, hne, hpos⟩
    exact ⟨(p, s.owners p a), List.mem_map_of_mem _ hp, hne, hpos⟩

theorem trade_candidates_none_of_no_opp {s : GameState} {a auctName : String}
    {thr : ℤ} (hno : ∀ p ∈ s.players, p ≠ auctName → s.owners p a ≤ 0) :
    trade_candidates (column s a) auctName thr = none := by
  cases hoc : trade_candidates (column s a) auctName thr with
  | none => rfl
  | some val =>
    exfalso
    have hs : (trade_candidates (column s a) auctName thr).isSome := by
      rw [hoc]; rfl
    rw [trade_candidates_isSome_iff] at hs
    obtain ⟨-, -, c, hc, hne, hpos⟩ := hs
    rcases List.mem_map.mp hc with ⟨p, hp, rfl⟩
    exact absurd hpos (not_lt.mpr (hno p hp hne))

theorem tradePhase_owners_frame {cfg : Config} {o : TradeOracle}
    {auctName : String} {s : GameState} {a : String}
    (hno : ∀ p ∈ s.players, p ≠ auctName → s.owners p a ≤ 0) :
    ∀ p, (tradePhase cfg o auctName s).owners p a = s.owners p a := by
  intro p
  rcases tradePhase_cases cfg o auctName s with heq |
    ⟨animal, offer, opps, total, opp, hanim, hcand, hopp, heq⟩
  · rw [heq]
  · rw [heq, tradeSettle_owners]
    have hanimne : a ≠ animal := by
      rintro rfl
      rw [trade_candidates_none_of_no_opp hno] at hcand
      cases hcand
    by_cases hoc : offer ≥ o.counter
    · rw [if_pos hoc, bump_of_ne_animal _ _ _ _ _ _ hanimne,
        bump_of_ne_animal _ _ _ _ _ _ hanimne]
    · rw [if_neg hoc, bump_of_ne_animal _ _ _ _ _ _ hanimne,
        bump_of_ne_animal _ _ _ _ _ _ hanimne]

theorem tradePhase_of_no_candidates {cfg : Config} {o : TradeOracle}
    {auctName : String} {s : GameState}
    (h : candidatesMap cfg auctName s = []) :
    tradePhase cfg o auctName s = s := by
  simp [tradePhase, h]

/-- C7 (amended): an animal type is a trade candidate for the auctioneer
iff its own count is in `[tradeThreshold, 4)` (the source hardcodes `4`
rather than `cards_each`) and some other player owns at least one of it;
when no other player owns any, the animal is not a candidate and the trade
phase leaves its ownership column unchanged; when nothing is a candidate
the trade phase leaves the whole state unchanged. -/
theorem trade_candidate_filter (cfg : Config) (o : TradeOracle)
    (auctName : String) (s : GameState) (a : String)
    (hmem : auctName ∈ s.players) :
    ((trade_candidates (column s a) auctName cfg.trade_threshold).isSome ↔
      (cfg.trade_threshold ≤ s.owners auctName a ∧ s.owners auctName a < 4 ∧
        ∃ p ∈ s.players, p ≠ auctName ∧ 0 < s.owners p a)) ∧
    ((∀ p ∈ s.players, p ≠ auctName → s.owners p a ≤ 0) →
      ∀ p, (tradePhase cfg o auctName s).owners p a = s.owners p a) ∧
    (candidatesMap cfg auctName s = [] → tradePhase cfg o auctName s = s) := by
  refine ⟨?_, tradePhase_owners_frame, tradePhase_of_no_candidates⟩
  rw [trade_candidates_isSome_iff, collectedOf_column hmem, exists_col_iff]

/-- C7 counterexample: with `cards_each = 5` the spec-side filter (own
count in `[threshold, cardsEach)`) accepts an auctioneer holding 4 of 5
cards, but the source filter, which hardcodes `collected < 4`, rejects it. -/
theorem trade_candidate_cards_each_refuted :
    tradeCandidateSpec [("A", 4), ("B", 1)] "A" 2 5 = true ∧
    trade_candidates [("A", (4 : ℤ)), ("B", 1)] "A" 2 = none := by
  decide

/-- Ownership for the C7 witness: A holds 2 cows, B holds 1. -/
def stC7 : GameState :=
  { players := ["A", "B", "C"]
    deck := { cards := [], pointer := 0 }
    owners := fun p a =>
      if p = "A" ∧ a = "cow" then 2 else if p = "B" ∧ a = "cow" then 1 else 0
    budgets := fun _ => 90
    bonuses := fun _ => [] }

/-- A trade oracle that declines to trade. -/
def orNone : TradeOracle := { choice := none, pick := 0, counter := 0 }

/-- Witness for the amended C7 at a concrete column. -/
theorem trade_candidate_filter_witness :
    (trade_candidates (column stC7 "cow") "A" exCfg.trade_threshold).isSome ↔
      (exCfg.trade_threshold ≤ stC7.owners "A" "cow" ∧
        stC7.owners "A" "cow" < 4 ∧
        ∃ p ∈ stC7.players, p ≠ "A" ∧ 0 < stC7.owners p "cow") :=
  (trade_candidate_filter exCfg orNone "A" stC7 "cow" (by decide)).1

/-- C9 (amended): `Game.add_player` rejects a sixth player, rejects a name
that is already a key of the `_players` dict (exact string match), and
otherwise appends the player; an error leaves the player dict unchanged
(the Python code raises before assigning). -/
theorem add_player_checks (players : List String) (name : String) :
    (maxPlayers ≤ players.length →
      add_player players name = Except.error "Too many players") ∧
    (players.length < maxPlayers → players.contains name = true →
      add_player players name = Except.error "Player already exists") ∧
    (players.length < maxPlayers → players.contains name = false →
      add_player players name = Except.ok (players ++ [name])) := by
  refine ⟨fun h => ?_, fun h hc => ?_, fun h hc => ?_⟩
  · unfold add_player
    rw [if_pos h]
  · unfold add_player
    rw [if_neg (not_le.mpr h), if_pos hc]
  · have hcc : ¬ (players.contains name = true) := by
      rw [hc]
      exact Bool.false_ne_true
    unfold add_player
    rw [if_neg (not_le.mpr h), if_neg hcc]

/-- Witness for the amended C9: a genuinely new name is appended. -/
theorem add_player_checks_witness :
    add_player ["Alice"] "Bob" = Except.ok ["Alice", "Bob"] :=
  (add_player_checks ["Alice"] "Bob").2.2 (by decide) (by decide)

/-- C9 counterexample: a name differing only in case from an existing
player is accepted by `add_player` (the duplicate check is the exact
dict-key test `name in self._players`, not the case-insensitive
`Player.__eq__`), contradicting the claimed case-insensitive rejection. -/
theorem add_player_case_insensitive_refuted :
    add_player ["Alice"] "ALICE" = Except.ok ["Alice", "ALICE"] := rfl

/-- Configuration for the C8 scenario: one animal type, four cards,
unlimited turns (`max_turns = 0`). -/
def cfg8 : Config :=
  { animals := [("cow", 10)]
    cards_each := 4
    bid_unit := 10
    trade_threshold := 2
    start_budget := 90
    max_turns := 0
    score_threshold := 4
    score_budget := true
    animal_bonuses := fun _ => [] }

/-- The C8 state: all four cows drawn (pointer past the end) and all held
by A — terminal according to the claim. -/
def stC8 : GameState :=
  { players := ["A", "B", "C"]
    deck := { cards := ["cow", "cow", "cow", "cow"], pointer := 4 }
    owners := fun p a => if p = "A" ∧ a = "cow" then 4 else 0
    budgets := fun _ => 90
    bonuses := fun _ => [] }

/-- A turn oracle with zero bids and no trading. -/
def orTurnNone : TurnOracle := { sbids := fun _ => 0, trade := orNone }

theorem tcC8_none (name : String) :
    trade_candidates [("A", (4 : ℤ)), ("B", 0), ("C", 0)] name 2 = none := by
  by_cases hA : name = "A"
  · subst hA
    decide
  · by_cases hB : name = "B"
    · subst hB
      decide
    · by_cases hC : name = "C"
      · subst hC
        decide
      · have hcoll : collectedOf [("A", (4 : ℤ)), ("B", 0), ("C", 0)] name = 0 := by
          unfold collectedOf
          rw [List.find?_cons_of_neg _ (by simp [Ne.symm hA]),
            List.find?_cons_of_neg _ (by simp [Ne.symm hB]),
            List.find?_cons_of_neg _ (by simp [Ne.symm hC]),
            List.find?_nil]
          rfl
        simp only [trade_candidates, hcoll]
        norm_num

theorem candidatesMapC8_nil (name : String) :
    candidatesMap cfg8 name stC8 = [] := by
  unfold candidatesMap
  have hnames : cfg8.animalNames = ["cow"] := rfl
  rw [hnames]
  have hcol : column stC8 "cow" = [("A", (4 : ℤ)), ("B", 0), ("C", 0)] := by
    decide
  have hnone : trade_candidates (column stC8 "cow") name cfg8.trade_threshold
      = none := by
    rw [hcol]
    exact tcC8_none name
  simp [List.filterMap_cons, hnone]

theorem turnStepC8_fix (o : TurnOracle) (name : String) :
    turnStep cfg8 o name stC8 = stC8 := by
  unfold turnStep
  have hdraw : stC8.deck.draw = (none, stC8.deck) := by decide
  have haux : auctionTurnPart cfg8 o.sbids name stC8 = stC8 := by
    simp only [auctionTurnPart, hdraw]
  rw [haux]
  simp [tradePhase, candidatesMapC8_nil name]

theorem runLoopC8_none : ∀ fuel turn,
    runLoop cfg8 (stepOf cfg8 ["A", "B", "C"] (fun _ => orTurnNone))
      fuel turn false stC8 = none := by
  intro fuel
  induction fuel with
  | zero =>
    intro turn
    rfl
  | succ n ih =>
    intro turn
    have hstep : stepOf cfg8 ["A", "B", "C"] (fun _ => orTurnNone) turn stC8
        = stC8 := turnStepC8_fix orTurnNone _
    have hrem : stC8.deck.remaining = 4 := rfl
    simp only [runLoop, hstep, hrem, Bool.false_eq_true, if_false]
    norm_num [cfg8]
    exact ih (turn + 1)

/-- C8 (code bug): this state is terminal according to the claim — the
deck is exhausted (no undrawn cards) and every animal type is completely
collected by some player — but with `max_turns = 0` the engine's loop
never stops: the stopping check compares `Deck.remaining`, which returns
the full card-list length (4, never 0), so `all_complete` is never
re-evaluated and the loop runs forever (the fuelled embedding returns
`none` for every fuel). -/
theorem termination_check_bug :
    specTerminal cfg8 stC8 = true ∧
    (∀ fuel turn,
      runLoop cfg8 (stepOf cfg8 ["A", "B", "C"] (fun _ => orTurnNone))
        fuel turn false stC8 = none) :=
  ⟨by decide, runLoopC8_none⟩

/-- Configuration for the C4 game: four cows, `max_turns = 1`. -/
def cfgC4 : Config :=
  { animals := [("cow", 10)]
    cards_each := 4
    bid_unit := 10
    trade_threshold := 2
    start_budget := 90
    max_turns := 1
    score_threshold := 4
    score_budget := true
    animal_bonuses := fun _ => [] }

/-- The oracle for the C4 game: B bids 30, C bids 20, A bids 10, nobody
trades. -/
def orC4 : TurnOracle := { sbids := exSbids, trade := orNone }

/-- The initial state of the C4 game. -/
def s0C4 : GameState := initState cfgC4 ["A", "B", "C"] ["cow", "cow", "cow", "cow"]

/-- C4 (code bug): running this complete one-turn game, the engine computes
and logs the final score mapping (A: 120, B: 60, C: 90 — B bought the cow
for 30 from auctioneer A), but `Game.run` has no return statement, so the
value returned to the caller is `None`; consequently the simulation
driver's ordered result list contains `None` per game instead of the score
mappings. -/
theorem game_run_returns_none :
    gameRun cfgC4 (stepOf cfgC4 ["A", "B", "C"] (fun _ => orC4)) 1 s0C4 =
      some { scoresComputed := [("A", 120), ("B", 60), ("C", 90)]
             returned := none } ∧
    simulatorRun cfgC4
      [(stepOf cfgC4 ["A", "B", "C"] (fun _ => orC4), 1, s0C4),
        (stepOf cfgC4 ["A", "B", "C"] (fun _ => orC4), 1, s0C4)] =
      [some none, some none] := by
  decide

end Koehandel
